import Mathlib

/-!
Shallow embedding of the kinship engine of `people/models.py` (the `Person`
model and its relationship/traversal methods), together with proofs about the
spec's claims.

Modelling conventions:
* A `Person` record keeps exactly the fields the traversal and age logic read:
  primary key `id`, `gender` (the source's `'M'`/`'F'` char field),
  `date_of_birth`, `date_of_death`, `deceased`, and the `mother`/`father`
  foreign keys (stored as optional primary keys, as Django does).  The purely
  presentational fields (`forename`, `surname`, `notes`, …) play no part in
  any traversal and are omitted.
* The database table is a `List Person`; a foreign-key dereference is a
  `lookup` by primary key.  Django model instances compare and hash by
  primary key, so the Python dict keyed by `Person` objects is embedded as an
  association list keyed by `id`.
* The recursive methods (`_ancestor_distances`, `descendants`) have no
  termination guard in the source; they are embedded with an explicit fuel
  parameter, `none` meaning the computation did not complete within the given
  recursion depth (for a cyclic graph no fuel suffices, which is the
  embedding of Python's unbounded recursion / stack overflow).  A failed
  foreign-key dereference (impossible under referential integrity) is also
  mapped to `none`, matching Django's `DoesNotExist` exception.
-/

structure MDate where
  year : Nat
  month : Nat
  day : Nat
deriving DecidableEq, Repr

structure Person where
  id : Nat
  gender : Char
  date_of_birth : Option MDate
  date_of_death : Option MDate
  deceased : Bool
  mother : Option Nat
  father : Option Nat
deriving DecidableEq, Repr

/-- Dereference a foreign key: find the person with the given primary key. -/
def lookup (g : List Person) (i : Nat) : Option Person :=
  g.find? (fun p => p.id == i)

/-- Python dict assignment `d[k] = v` (last write wins, keyed by primary key). -/
def dinsert (d : List (Nat × Nat)) (k v : Nat) : List (Nat × Nat) :=
  (k, v) :: d.filter (fun kv => kv.1 != k)

/-- Python `d.update(d2)`: assign every binding of `d2` into `d`. -/
def dupdate (d d2 : List (Nat × Nat)) : List (Nat × Nat) :=
  d2.foldl (fun acc kv => dinsert acc kv.1 kv.2) d

/-- Python `d.keys()`. -/
def dkeys (d : List (Nat × Nat)) : List Nat :=
  d.map (fun kv => kv.1)

/-- Python `d[k]` as an optional read. -/
def dlookup (d : List (Nat × Nat)) (k : Nat) : Option Nat :=
  (d.find? (fun kv => kv.1 == k)).map (fun kv => kv.2)

/-- Ordering used by `order_by('date_of_birth')` on two concrete dates. -/
def dLe (a b : MDate) : Bool :=
  a.year < b.year ||
    (a.year == b.year &&
      (a.month < b.month || (a.month == b.month && a.day ≤ b.day)))

/-- Ordering used by `order_by('date_of_birth')`; a missing date (NULL) sorts
first. -/
def dobLe : Option MDate → Option MDate → Bool
  | none, _ => true
  | some _, none => false
  | some a, some b => dLe a b

/-- Insert into a list already sorted by date of birth. -/
def insertByDob (q : Person) : List Person → List Person
  | [] => [q]
  | r :: rs =>
    if dobLe q.date_of_birth r.date_of_birth then q :: r :: rs
    else r :: insertByDob q rs

/-- Stable sort by date of birth, the embedding of `order_by('date_of_birth')`. -/
def sortByDob : List Person → List Person
  | [] => []
  | q :: qs => insertByDob q (sortByDob qs)

/-- Embedding of `Person.children`: the reverse foreign-key query `children_of_mother`
(resp. `children_of_father`) ordered by date of birth.  A person's children
are found through the mother link when the person is female, through the
father link otherwise. -/
def childrenOf (g : List Person) (p : Person) : List Person :=
  sortByDob (g.filter (fun q =>
    (if p.gender == 'F' then q.mother else q.father) == some p.id))

/-- Embedding of `Person.age`: years between birth and death date (deceased) or "today"
(living), minus one when the birthday has not yet occurred in the end year;
`None` when the birth date is missing or the person is deceased without a
death date.  `date.today()` is passed in as the explicit `today` argument. -/
def age (p : Person) (today : MDate) : Option Int :=
  match p.date_of_birth with
  | none => none
  | some birth =>
    match p.deceased, p.date_of_death with
    | true, none => none
    | true, some e =>
      let years : Int := (e.year : Int) - (birth.year : Int)
      some (if e.month < birth.month ∨ (e.month = birth.month ∧ e.day < birth.day)
            then years - 1 else years)
    | false, _ =>
      let years : Int := (today.year : Int) - (birth.year : Int)
      some (if today.month < birth.month ∨ (today.month = birth.month ∧ today.day < birth.day)
            then years - 1 else years)

/-- Embedding of `Person.clean`: the raised `ValidationError` is embedded as a `some`
message; `none` means the method returns normally.  The method reads state
and never writes it, which the embedding reflects by being a pure function of
the record. -/
def clean (p : Person) : Option String :=
  if p.date_of_death.isSome && !p.deceased then
    some "Cannot specify date of death for living person."
  else none

/-- Embedding of `Person.siblings`: the query
`filter(~Q(id=self.id), Q(~Q(father=None), father=self.father) | Q(~Q(mother=None), mother=self.mother))`
ordered by date of birth: another person is a sibling when it is not `self`
and shares a non-NULL father or a non-NULL mother with `self`. -/
def siblings (g : List Person) (p : Person) : List Person :=
  sortByDob (g.filter (fun q =>
    (q.id != p.id) &&
      ((q.father.isSome && q.father == p.father) ||
       (q.mother.isSome && q.mother == p.mother))))

/-- Sequential `Option`-valued map, the embedding of a Python `for` loop whose
body may diverge or raise: the whole loop completes only if every iteration
does. -/
def omapM (f : α → Option β) : List α → Option (List β)
  | [] => some []
  | a :: as =>
    match f a, omapM f as with
    | some b, some bs => some (b :: bs)
    | _, _ => none

/-- Embedding of `Person._ancestor_distances(offset)`: the naive recursive walk of the
source, with an explicit recursion-depth fuel.  For each present parent the
parent is written into the dict at `offset + 1` and the dict is then
`update`d with the parent's own walk — last write wins, no visited check. -/
def ancestorDistancesFuel (g : List Person) : Nat → Person → Nat → Option (List (Nat × Nat))
  | 0, _, _ => none
  | fuel + 1, p, off =>
    let motherSide : Option (List (Nat × Nat)) :=
      match p.mother with
      | none => some []
      | some mid =>
        match lookup g mid with
        | none => none
        | some m =>
          (ancestorDistancesFuel g fuel m (off + 1)).map
            (fun sub => dupdate (dinsert [] mid (off + 1)) sub)
    match motherSide with
    | none => none
    | some d1 =>
      match p.father with
      | none => some d1
      | some fid =>
        match lookup g fid with
        | none => none
        | some f =>
          (ancestorDistancesFuel g fuel f (off + 1)).map
            (fun sub => dupdate (dinsert d1 fid (off + 1)) sub)

/-- Embedding of `Person.ancestors`: the key set of the ancestor-distance dict.  Note that
the source's body reads `self.ancestor_distances().keys()` while the method it
means is named `_ancestor_distances`; the embedding binds the evident intent,
and the name-resolution failure itself is settled separately (see
`personAttrNames` and claim C5). -/
def ancestorsFuel (g : List Person) (fuel : Nat) (p : Person) : Option (List Nat) :=
  (ancestorDistancesFuel g fuel p 0).map dkeys

/-- Embedding of `Person.descendants`: children followed by each child's own descendants,
with the source's unbounded recursion embedded through fuel. -/
def descendantsFuel (g : List Person) : Nat → Person → Option (List Person)
  | 0, _ => none
  | fuel + 1, p =>
    match omapM (fun c => descendantsFuel g fuel c) (childrenOf g p) with
    | none => none
    | some ds => some (childrenOf g p ++ ds.flatten)

/-- The root-ancestor selection of `Person.relatives`:
`[p for p in ancestors if not (p.father and p.mother)] or [self]` — the
ancestors missing at least one recorded parent, or `[self]` when that list is
empty. -/
def rootsOf (p : Person) (ancs : List Person) : List Person :=
  if (ancs.filter (fun a => !(a.father.isSome && a.mother.isSome))).isEmpty
  then [p]
  else ancs.filter (fun a => !(a.father.isSome && a.mother.isSome))

/-- The root-ancestor list computed inside `Person.relatives`, as a standalone
query (the dict keys are dereferenced back to person records, which under
referential integrity always succeeds). -/
def rootAncestorsFuel (g : List Person) (fuel : Nat) (p : Person) : Option (List Person) :=
  (ancestorDistancesFuel g fuel p 0).map
    (fun d => rootsOf p ((dkeys d).filterMap (lookup g)))

/-- Embedding of `Person.relatives`, up to the relationship annotation (the annotation maps
over this set and pairs each member with a label from the external
`people.relations` module; the set of related persons is what the claims are
about).  `Set(root_ancestors)` plus every root ancestor's descendants, with
`self` removed; `Set.remove` raises `KeyError` when `self` is absent, embedded
as `none`.  The result is the set of primary keys of the relatives. -/
def relativesFuel (g : List Person) (fuel : Nat) (p : Person) : Option (List Nat) :=
  match ancestorDistancesFuel g fuel p 0 with
  | none => none
  | some d =>
    let roots := rootsOf p ((dkeys d).filterMap (lookup g))
    match omapM (fun r => descendantsFuel g fuel r) roots with
    | none => none
    | some ds =>
      let pre := (roots ++ ds.flatten).map (fun q => q.id)
      if p.id ∈ pre then some (pre.dedup.filter (fun i => i != p.id)) else none

/-- The brute-force blood-relative set the spec compares against: every
ancestor together with every ancestor's full descendant set, minus the person
(this definition follows the spec's words; `relativesFuel` above follows the
source). -/
def bruteForceRelatives (g : List Person) (fuel : Nat) (p : Person) : Option (List Nat) :=
  match ancestorDistancesFuel g fuel p 0 with
  | none => none
  | some d =>
    let ancs := (dkeys d).filterMap (lookup g)
    match omapM (fun a => descendantsFuel g fuel a) ancs with
    | none => none
    | some ds =>
      some ((((ancs ++ ds.flatten).map (fun q => q.id)).dedup).filter (fun i => i != p.id))

/-- The attribute names defined by the `Person` class body, in source order
(used to settle attribute resolution of `self.ancestor_distances`). -/
def personAttrNames : List String :=
  ["forename", "middle_names", "surname", "maiden_name", "gender",
   "date_of_birth", "date_of_death", "deceased", "mother", "father", "notes",
   "name", "age", "spouses", "siblings", "children", "descendants",
   "annotated_descendants", "_ancestor_distances", "ancestors",
   "annotated_ancestors", "relatives", "photos", "clean", "__unicode__"]

/-- Referential-integrity and gender consistency of one parent link: when set,
it resolves in the store to a person of the stated gender (Django enforces
this through the foreign-key constraint and `limit_choices_to`). -/
def parentOK (g : List Person) (link : Option Nat) (gen : Char) : Bool :=
  match link with
  | none => true
  | some i =>
    match lookup g i with
    | some q => q.gender == gen
    | none => false

/-- Well-formed store: distinct primary keys, every mother link resolves to a
female person and every father link to a male one. -/
def WF (g : List Person) : Prop :=
  (g.map (fun p => p.id)).Nodup ∧
    ∀ p ∈ g, parentOK g p.mother 'F' = true ∧ parentOK g p.father 'M' = true

/-- One person's obligations under a topological rank `h`: each parent link
strictly increases the rank, and the rank is bounded by the store size. -/
def rankEdgesOK (h : Nat → Nat) (bound : Nat) (p : Person) : Bool :=
  (match p.mother with
   | none => true
   | some m => h p.id < h m) &&
    (match p.father with
     | none => true
     | some f => h p.id < h f) &&
    h p.id < bound

/-- Acyclicity of the mother/father graph, phrased as the existence of a
topological rank (for a finite graph this is equivalent to the absence of
directed cycles in the parent links). -/
def Acyclic (g : List Person) : Prop :=
  ∃ h : Nat → Nat, ∀ p ∈ g, rankEdgesOK h g.length p = true

/-- Holds when `q` is a recorded parent of `p` within the store. -/
def ParentOf (g : List Person) (q p : Person) : Prop :=
  p ∈ g ∧ lookup g q.id = some q ∧ (p.mother = some q.id ∨ p.father = some q.id)

instance (g : List Person) (q p : Person) : Decidable (ParentOf g q p) :=
  inferInstanceAs (Decidable (_ ∧ _ ∧ (_ ∨ _)))

/-- Holds when `a` is an ancestor of `p` at generation distance `n` (a parent chain of
length `n` leads from `p` up to `a`). -/
inductive AncN (g : List Person) : Person → Person → Nat → Prop where
  | parent : ParentOf g a p → AncN g a p 1
  | step : ParentOf g q p → AncN g a q n → AncN g a p (n + 1)

/-- Holds when `a` is an ancestor of `p` (at some distance). -/
def AncOf (g : List Person) (a p : Person) : Prop :=
  ∃ n, AncN g a p n

/-! Concrete stores used by counterexamples and witnesses. -/

/-- A person who is a grandparent through the mother (id 3 at distance 2) and
a great-grandparent through the father (id 3 again, at distance 3): the
subject of the minimum-distance question. -/
def P6 : Person := ⟨0, 'M', none, none, false, some 1, some 2⟩

/-- Mother of `P6`; her mother is the shared ancestor `G6`. -/
def M6 : Person := ⟨1, 'F', none, none, false, some 3, none⟩

/-- Father of `P6`; his father's mother is the shared ancestor `G6`. -/
def F6 : Person := ⟨2, 'M', none, none, false, none, some 4⟩

/-- The shared ancestor, reachable at distance 2 and at distance 3. -/
def G6 : Person := ⟨3, 'F', none, none, false, none, none⟩

/-- Paternal grandfather of `P6`, child of `G6`. -/
def H6 : Person := ⟨4, 'M', none, none, false, some 3, none⟩

/-- Store for the two-path ancestor example. -/
def g6 : List Person := [P6, M6, F6, G6, H6]

/-- A person recorded as her own mother: the malformed cyclic graph. -/
def Acyc : Person := ⟨0, 'F', none, none, false, some 0, none⟩

/-- Store containing the parent-link cycle. -/
def gcyc : List Person := [Acyc]

/-- Bottom of a three-generation maternal line. -/
def P3 : Person := ⟨0, 'M', none, none, false, some 1, none⟩

/-- Middle of the line: her mother is recorded, her father is not. -/
def M3 : Person := ⟨1, 'F', none, none, false, some 2, none⟩

/-- Top of the line: no recorded parent on either side. -/
def G3 : Person := ⟨2, 'F', none, none, false, none, none⟩

/-- Store for the three-generation maternal line. -/
def g3 : List Person := [P3, M3, G3]

/-- A parentless mother: a person with descendants but no ancestors. -/
def PC4 : Person := ⟨0, 'F', none, none, false, none, none⟩

/-- Child of `PC4`. -/
def CC4 : Person := ⟨1, 'M', none, none, false, some 0, none⟩

/-- Store for the no-ancestor example. -/
def gC4 : List Person := [PC4, CC4]

/-- A mother two of whose children are themselves the two parents of `G7`:
the grandchild is reachable through two distinct children. -/
def P7 : Person := ⟨0, 'F', none, none, false, none, none⟩

/-- Elder child of `P7`, mother of `G7`. -/
def C7a : Person := ⟨1, 'F', some ⟨1980, 1, 1⟩, none, false, some 0, none⟩

/-- Younger child of `P7`, father of `G7`. -/
def C7b : Person := ⟨2, 'M', some ⟨1982, 1, 1⟩, none, false, some 0, none⟩

/-- Grandchild of `P7` through both `C7a` and `C7b`. -/
def G7 : Person := ⟨3, 'F', none, none, false, some 1, some 2⟩

/-- Store for the two-path descendant example. -/
def g7 : List Person := [P7, C7a, C7b, G7]

/-- An orphan with no recorded parents. -/
def A10 : Person := ⟨0, 'M', none, none, false, none, none⟩

/-- Another orphan with no recorded parents. -/
def B10 : Person := ⟨1, 'F', none, none, false, none, none⟩

/-- Store with two unrelated orphans. -/
def g10 : List Person := [A10, B10]

/-- A living person born 2000-06-15, for the age example. -/
def personBorn2000 : Person := ⟨0, 'F', some ⟨2000, 6, 15⟩, none, false, none, none⟩

instance (g : List Person) : Decidable (WF g) :=
  inferInstanceAs (Decidable (_ ∧ ∀ p ∈ g, _ ∧ _))

/-! Infrastructure lemmas: lookup, dict keys, sorting, `omapM`. -/

theorem lookup_mem_id (g : List Person) (i : Nat) (q : Person)
    (h : lookup g i = some q) : q ∈ g ∧ q.id = i := by
  unfold lookup at h
  refine ⟨List.mem_of_find?_eq_some h, ?_⟩
  have := List.find?_some h
  simpa using this

theorem lookup_det (g : List Person) (i : Nat) (q : Person)
    (h : lookup g i = some q) : lookup g q.id = some q := by
  obtain ⟨-, rfl⟩ := lookup_mem_id g i q h
  exact h

theorem lookup_self (g : List Person) (p : Person)
    (hnd : (g.map (fun r => r.id)).Nodup) (hp : p ∈ g) :
    lookup g p.id = some p := by
  induction g with
  | nil => cases hp
  | cons r rs ih =>
    rcases List.mem_cons.mp hp with rfl | hp'
    · unfold lookup
      exact List.find?_cons_of_pos _ (by simp)
    · have hnd' := hnd
      rw [List.map_cons, List.nodup_cons] at hnd'
      have hne : r.id ≠ p.id := by
        intro he
        exact hnd'.1 (he ▸ List.mem_map_of_mem (fun x => x.id) hp')
      have : lookup rs p.id = some p := ih hnd'.2 hp'
      unfold lookup at this ⊢
      rw [List.find?_cons_of_neg _ (by simpa using hne)]
      exact this

theorem mem_dkeys_dinsert (d : List (Nat × Nat)) (k v i : Nat) :
    i ∈ dkeys (dinsert d k v) ↔ i = k ∨ i ∈ dkeys d := by
  unfold dkeys dinsert
  simp only [List.map_cons, List.mem_cons, List.mem_map, List.mem_filter]
  constructor
  · rintro (rfl | ⟨kv, ⟨hkv, -⟩, rfl⟩)
    · exact Or.inl rfl
    · exact Or.inr ⟨kv, hkv, rfl⟩
  · rintro (rfl | ⟨kv, hkv, rfl⟩)
    · exact Or.inl rfl
    · by_cases he : kv.1 = k
      · exact Or.inl he
      · exact Or.inr ⟨kv, ⟨hkv, by simpa using he⟩, rfl⟩

theorem mem_dkeys_dupdate (d d2 : List (Nat × Nat)) (i : Nat) :
    i ∈ dkeys (dupdate d d2) ↔ i ∈ dkeys d ∨ i ∈ dkeys d2 := by
  induction d2 generalizing d with
  | nil => simp [dupdate, dkeys]
  | cons kv rest ih =>
    have : dupdate d (kv :: rest) = dupdate (dinsert d kv.1 kv.2) rest := rfl
    rw [this, ih, mem_dkeys_dinsert]
    unfold dkeys
    simp only [List.map_cons, List.mem_cons]
    tauto

theorem mem_insertByDob (q x : Person) (l : List Person) :
    x ∈ insertByDob q l ↔ x = q ∨ x ∈ l := by
  induction l with
  | nil => simp [insertByDob]
  | cons r rs ih =>
    unfold insertByDob
    by_cases h : dobLe q.date_of_birth r.date_of_birth = true
    · rw [if_pos h]; simp
    · rw [if_neg h]
      simp only [List.mem_cons, ih]
      tauto

theorem mem_sortByDob (x : Person) (l : List Person) :
    x ∈ sortByDob l ↔ x ∈ l := by
  induction l with
  | nil => simp [sortByDob]
  | cons r rs ih =>
    unfold sortByDob
    rw [mem_insertByDob]
    simp only [List.mem_cons, ih]

theorem omapM_mem (f : α → Option β) (l : List α) (bs : List β)
    (h : omapM f l = some bs) (a : α) (ha : a ∈ l) :
    ∃ b, f a = some b ∧ b ∈ bs := by
  induction l generalizing bs with
  | nil => cases ha
  | cons c cs ih =>
    unfold omapM at h
    rcases hfc : f c with - | b₀ <;> rw [hfc] at h
    · exact absurd h (by simp)
    · rcases hrest : omapM f cs with - | bs₀ <;> rw [hrest] at h
      · exact absurd h (by simp)
      · have hbs : bs = b₀ :: bs₀ := by
          injection h with h'; exact h'.symm
        subst hbs
        rcases List.mem_cons.mp ha with rfl | ha'
        · exact ⟨b₀, hfc, List.mem_cons_self _ _⟩
        · obtain ⟨b, hb, hbmem⟩ := ih bs₀ hrest ha'
          exact ⟨b, hb, List.mem_cons_of_mem _ hbmem⟩

theorem omapM_mem_rev (f : α → Option β) (l : List α) (bs : List β)
    (h : omapM f l = some bs) (b : β) (hb : b ∈ bs) :
    ∃ a ∈ l, f a = some b := by
  induction l generalizing bs with
  | nil =>
    unfold omapM at h
    injection h with h'
    subst h'
    cases hb
  | cons c cs ih =>
    unfold omapM at h
    rcases hfc : f c with - | b₀ <;> rw [hfc] at h
    · exact absurd h (by simp)
    · rcases hrest : omapM f cs with - | bs₀ <;> rw [hrest] at h
      · exact absurd h (by simp)
      · have hbs : bs = b₀ :: bs₀ := by
          injection h with h'; exact h'.symm
        subst hbs
        rcases List.mem_cons.mp hb with rfl | hb'
        · exact ⟨c, List.mem_cons_self _ _, hfc⟩
        · obtain ⟨a, ha, hfa⟩ := ih bs₀ hrest hb'
          exact ⟨a, List.mem_cons_of_mem _ ha, hfa⟩

/-! Lemmas about parent chains. -/

theorem parentOf_child_mem {g : List Person} {q p : Person}
    (h : ParentOf g q p) : p ∈ g := h.1

theorem parentOf_parent_lookup {g : List Person} {q p : Person}
    (h : ParentOf g q p) : lookup g q.id = some q := h.2.1

theorem parentOf_parent_mem {g : List Person} {q p : Person}
    (h : ParentOf g q p) : q ∈ g :=
  (lookup_mem_id g q.id q h.2.1).1

theorem ancN_trans {g : List Person} {a b c : Person} {n m : Nat}
    (hab : AncN g a b n) (hbc : AncN g b c m) : AncN g a c (n + m) := by
  induction hbc with
  | parent h => exact AncN.step h hab
  | step h _ ih => exact AncN.step h (ih hab)

theorem ancN_top_decomp {g : List Person} {a p : Person} {n : Nat}
    (h : AncN g a p n) :
    (n = 1 ∧ ParentOf g a p) ∨
      ∃ c m, ParentOf g a c ∧ AncN g c p m ∧ n = m + 1 := by
  induction h with
  | parent h => exact Or.inl ⟨rfl, h⟩
  | step hpo hchain ih =>
    rcases ih with ⟨rfl, htop⟩ | ⟨c, m, htop, hchain2, rfl⟩
    · exact Or.inr ⟨_, 1, htop, AncN.parent hpo, rfl⟩
    · exact Or.inr ⟨c, m + 1, htop, AncN.step hpo hchain2, rfl⟩

theorem ancN_top_lookup {g : List Person} {a p : Person} {n : Nat}
    (h : AncN g a p n) : lookup g a.id = some a := by
  rcases ancN_top_decomp h with ⟨-, htop⟩ | ⟨c, m, htop, -, -⟩ <;>
    exact parentOf_parent_lookup htop

theorem ancN_top_mem {g : List Person} {a p : Person} {n : Nat}
    (h : AncN g a p n) : a ∈ g :=
  (lookup_mem_id g a.id a (ancN_top_lookup h)).1

theorem ancN_bot_mem {g : List Person} {a p : Person} {n : Nat}
    (h : AncN g a p n) : p ∈ g := by
  cases h with
  | parent h => exact parentOf_child_mem h
  | step h _ => exact parentOf_child_mem h

/-! Extraction lemmas for well-formedness and ranks. -/

theorem wf_nodup {g : List Person} (h : WF g) :
    (g.map (fun r => r.id)).Nodup := h.1

theorem wf_mother {g : List Person} {p : Person} (h : WF g) (hp : p ∈ g)
    {m : Nat} (hm : p.mother = some m) :
    ∃ q, lookup g m = some q ∧ q.gender = 'F' := by
  have h2 := (h.2 p hp).1
  rw [hm] at h2
  rcases hq : lookup g m with - | q
  · simp [parentOK, hq] at h2
  · refine ⟨q, rfl, ?_⟩
    simp [parentOK, hq] at h2
    exact h2

theorem wf_father {g : List Person} {p : Person} (h : WF g) (hp : p ∈ g)
    {f : Nat} (hf : p.father = some f) :
    ∃ q, lookup g f = some q ∧ q.gender = 'M' := by
  have h2 := (h.2 p hp).2
  rw [hf] at h2
  rcases hq : lookup g f with - | q
  · simp [parentOK, hq] at h2
  · refine ⟨q, rfl, ?_⟩
    simp [parentOK, hq] at h2
    exact h2

theorem rank_mother {g : List Person} {h : Nat → Nat}
    (hr : ∀ q ∈ g, rankEdgesOK h g.length q = true) {p : Person} (hp : p ∈ g)
    {m : Nat} (hm : p.mother = some m) : h p.id < h m := by
  have := hr p hp
  unfold rankEdgesOK at this
  rw [hm] at this
  simp at this
  exact this.1.1

theorem rank_father {g : List Person} {h : Nat → Nat}
    (hr : ∀ q ∈ g, rankEdgesOK h g.length q = true) {p : Person} (hp : p ∈ g)
    {f : Nat} (hf : p.father = some f) : h p.id < h f := by
  have := hr p hp
  unfold rankEdgesOK at this
  rw [hf] at this
  simp at this
  exact this.1.2

theorem rank_bound {g : List Person} {h : Nat → Nat}
    (hr : ∀ q ∈ g, rankEdgesOK h g.length q = true) {p : Person} (hp : p ∈ g) :
    h p.id < g.length := by
  have := hr p hp
  unfold rankEdgesOK at this
  simp at this
  exact this.2

theorem rank_parentOf {g : List Person} {h : Nat → Nat}
    (hr : ∀ q ∈ g, rankEdgesOK h g.length q = true) {q p : Person}
    (hpo : ParentOf g q p) : h p.id < h q.id := by
  obtain ⟨hp, hlk, hlink⟩ := hpo
  rcases hlink with hm | hf
  · exact rank_mother hr hp hm
  · exact rank_father hr hp hf

theorem rank_ancN {g : List Person} {h : Nat → Nat}
    (hr : ∀ q ∈ g, rankEdgesOK h g.length q = true) {a p : Person} {n : Nat}
    (hc : AncN g a p n) : h p.id < h a.id := by
  induction hc with
  | parent hpo => exact rank_parentOf hr hpo
  | step hpo _ ih => exact lt_trans (rank_parentOf hr hpo) ih

theorem acyclic_no_self_anc {g : List Person} (hac : Acyclic g)
    {p : Person} {n : Nat} (hc : AncN g p p n) : False := by
  obtain ⟨h, hr⟩ := hac
  exact lt_irrefl _ (rank_ancN hr hc)

/-- Climbing the mother line from any ancestor reaches, in an acyclic
well-formed store, an ancestor with a missing parent (the source's root
condition): `r` is an ancestor of `p`, is `a` itself or an ancestor of `a`,
and fails the `p.father and p.mother` test. -/
theorem root_above {g : List Person} {h : Nat → Nat} (hwf : WF g)
    (hr : ∀ q ∈ g, rankEdgesOK h g.length q = true) :
    ∀ (k : Nat) (a p : Person) (n : Nat), g.length ≤ h a.id + k →
      AncN g a p n →
      ∃ r, AncOf g r p ∧ (r = a ∨ AncOf g r a) ∧
        (r.father.isSome && r.mother.isSome) = false := by
  intro k
  induction k with
  | zero =>
    intro a p n hk hc
    exact absurd (rank_bound hr (ancN_top_mem hc)) (by omega)
  | succ k ih =>
    intro a p n hk hc
    by_cases hroot : (a.father.isSome && a.mother.isSome) = false
    · exact ⟨a, ⟨n, hc⟩, Or.inl rfl, hroot⟩
    · have hboth : (a.father.isSome && a.mother.isSome) = true := by
        revert hroot
        cases a.father.isSome && a.mother.isSome <;> simp
      have hpair : a.father.isSome = true ∧ a.mother.isSome = true := by
        simpa using hboth
      obtain ⟨mid, hmid⟩ := Option.isSome_iff_exists.mp hpair.2
      have hamem : a ∈ g := ancN_top_mem hc
      obtain ⟨mom, hlkm, -⟩ := wf_mother hwf hamem hmid
      have hmomid : mom.id = mid := (lookup_mem_id g mid mom hlkm).2
      have hpo : ParentOf g mom a :=
        ⟨hamem, hmomid ▸ hlkm, Or.inl (hmomid ▸ hmid)⟩
      have hchain : AncN g mom p (1 + n) :=
        ancN_trans (AncN.parent hpo) hc
      have hrank : h a.id < h mom.id := rank_parentOf hr hpo
      obtain ⟨r, hrp, hra, hrroot⟩ :=
        ih mom p (1 + n) (by omega) hchain
      refine ⟨r, hrp, Or.inr ?_, hrroot⟩
      rcases hra with rfl | ⟨m, hm⟩
      · exact ⟨1, AncN.parent hpo⟩
      · exact ⟨m + 1, ancN_trans hm (AncN.parent hpo)⟩

/-- Shape of one successful step of the ancestor walk: the mother side is
processed first (empty dict, or insert-then-update through the mother), then
the father side on top of it. -/
theorem anc_walk_succ {g : List Person} {fuel : Nat} {p : Person} {off : Nat}
    {d : List (Nat × Nat)}
    (hd : ancestorDistancesFuel g (fuel + 1) p off = some d) :
    ∃ d1,
      ((p.mother = none ∧ d1 = []) ∨
        ∃ mid m sub, p.mother = some mid ∧ lookup g mid = some m ∧
          ancestorDistancesFuel g fuel m (off + 1) = some sub ∧
          d1 = dupdate (dinsert [] mid (off + 1)) sub) ∧
      ((p.father = none ∧ d = d1) ∨
        ∃ fid f sub, p.father = some fid ∧ lookup g fid = some f ∧
          ancestorDistancesFuel g fuel f (off + 1) = some sub ∧
          d = dupdate (dinsert d1 fid (off + 1)) sub) := by
  unfold ancestorDistancesFuel at hd
  rcases hpm : p.mother with - | mid <;> rw [hpm] at hd <;> try dsimp only at hd
  · rcases hpf : p.father with - | fid <;> rw [hpf] at hd <;> try dsimp only at hd
    · refine ⟨[], Or.inl ⟨rfl, rfl⟩, Or.inl ⟨rfl, ?_⟩⟩
      injection hd with h
      exact h.symm
    · rcases hlkf : lookup g fid with - | f <;> rw [hlkf] at hd <;>
        try dsimp only at hd
      · exact absurd hd (by simp)
      · rcases hsubf : ancestorDistancesFuel g fuel f (off + 1) with - | sub <;>
          rw [hsubf] at hd <;> try simp only [Option.map_some'] at hd
        · exact absurd hd (by simp)
        · injection hd with h
          exact ⟨[], Or.inl ⟨rfl, rfl⟩,
            Or.inr ⟨fid, f, sub, rfl, hlkf, hsubf, h.symm⟩⟩
  · rcases hlkm : lookup g mid with - | m <;> rw [hlkm] at hd <;>
      try dsimp only at hd
    · exact absurd hd (by simp)
    · rcases hsubm : ancestorDistancesFuel g fuel m (off + 1) with - | sub <;>
        rw [hsubm] at hd <;> try simp only [Option.map_some'] at hd
      · exact absurd hd (by simp)
      · refine ⟨dupdate (dinsert [] mid (off + 1)) sub,
          Or.inr ⟨mid, m, sub, rfl, hlkm, hsubm, rfl⟩, ?_⟩
        rcases hpf : p.father with - | fid <;> rw [hpf] at hd <;>
          try dsimp only at hd
        · refine Or.inl ⟨rfl, ?_⟩
          injection hd with h
          exact h.symm
        · rcases hlkf : lookup g fid with - | f <;> rw [hlkf] at hd <;>
            try dsimp only at hd
          · exact absurd hd (by simp)
          · rcases hsubf : ancestorDistancesFuel g fuel f (off + 1) with - | subf <;>
              rw [hsubf] at hd <;> try simp only [Option.map_some'] at hd
            · exact absurd hd (by simp)
            · injection hd with h
              exact Or.inr ⟨fid, f, subf, rfl, hlkf, hsubf, h.symm⟩

/-- Every key of a completed ancestor walk is the primary key of a genuine
ancestor (reachable by some parent chain). -/
theorem ancKeys_sound {g : List Person} :
    ∀ fuel {p : Person} {off : Nat} {d : List (Nat × Nat)}, p ∈ g →
      ancestorDistancesFuel g fuel p off = some d →
      ∀ i ∈ dkeys d, ∃ q n, lookup g i = some q ∧ AncN g q p n := by
  intro fuel
  induction fuel with
  | zero =>
    intro p off d _ hd
    exact absurd hd (by simp [ancestorDistancesFuel])
  | succ fuel ih =>
    intro p off d hp hd i hi
    obtain ⟨d1, hm, hf⟩ := anc_walk_succ hd
    have hd1keys : ∀ j ∈ dkeys d1, ∃ q n, lookup g j = some q ∧ AncN g q p n := by
      intro j hj
      rcases hm with ⟨-, rfl⟩ | ⟨mid, m, sub, hpm, hlkm, hsubm, rfl⟩
      · cases hj
      · rw [mem_dkeys_dupdate, mem_dkeys_dinsert] at hj
        obtain ⟨hmmem, hmid⟩ := lookup_mem_id g mid m hlkm
        have hpo : ParentOf g m p :=
          ⟨hp, hmid ▸ hlkm, Or.inl (hmid ▸ hpm)⟩
        rcases hj with (rfl | hj0) | hjsub
        · exact ⟨m, 1, hlkm, AncN.parent hpo⟩
        · cases hj0
        · obtain ⟨q, n, hq, hchain⟩ := ih hmmem hsubm j hjsub
          exact ⟨q, n + 1, hq, AncN.step hpo hchain⟩
    rcases hf with ⟨-, rfl⟩ | ⟨fid, f, sub, hpf, hlkf, hsubf, rfl⟩
    · exact hd1keys i hi
    · rw [mem_dkeys_dupdate, mem_dkeys_dinsert] at hi
      obtain ⟨hfmem, hfid⟩ := lookup_mem_id g fid f hlkf
      have hpo : ParentOf g f p :=
        ⟨hp, hfid ▸ hlkf, Or.inr (hfid ▸ hpf)⟩
      rcases hi with (rfl | hi1) | hisub
      · exact ⟨f, 1, hlkf, AncN.parent hpo⟩
      · exact hd1keys i hi1
      · obtain ⟨q, n, hq, hchain⟩ := ih hfmem hsubf i hisub
        exact ⟨q, n + 1, hq, AncN.step hpo hchain⟩

/-- Every ancestor reachable by a parent chain appears among the keys of a
completed ancestor walk. -/
theorem ancKeys_complete {g : List Person} {a p : Person} {n : Nat}
    (hc : AncN g a p n) :
    ∀ {fuel off : Nat} {d : List (Nat × Nat)},
      ancestorDistancesFuel g fuel p off = some d → a.id ∈ dkeys d := by
  induction hc with
  | @parent a p hpo =>
    intro fuel off d hd
    rcases fuel with - | fuel
    · exact absurd hd (by simp [ancestorDistancesFuel])
    obtain ⟨d1, hm, hf⟩ := anc_walk_succ hd
    rcases hpo.2.2 with hlink | hlink
    · have hd1 : a.id ∈ dkeys d1 := by
        rcases hm with ⟨hnone, -⟩ | ⟨mid, m, sub, hpm, -, -, rfl⟩
        · rw [hlink] at hnone; cases hnone
        · rw [hlink] at hpm
          injection hpm with he
          rw [mem_dkeys_dupdate, mem_dkeys_dinsert]
          exact Or.inl (Or.inl he)
      rcases hf with ⟨-, rfl⟩ | ⟨fid, f, sub, -, -, -, rfl⟩
      · exact hd1
      · rw [mem_dkeys_dupdate, mem_dkeys_dinsert]
        exact Or.inl (Or.inr hd1)
    · rcases hf with ⟨hnone, -⟩ | ⟨fid, f, sub, hpf, -, -, rfl⟩
      · rw [hlink] at hnone; cases hnone
      · rw [hlink] at hpf
        injection hpf with he
        rw [mem_dkeys_dupdate, mem_dkeys_dinsert]
        exact Or.inl (Or.inl he)
  | @step q p a2 n hpo hchain ih =>
    intro fuel off d hd
    rcases fuel with - | fuel
    · exact absurd hd (by simp [ancestorDistancesFuel])
    obtain ⟨d1, hm, hf⟩ := anc_walk_succ hd
    rcases hpo.2.2 with hlink | hlink
    · have hd1 : a2.id ∈ dkeys d1 := by
        rcases hm with ⟨hnone, -⟩ | ⟨mid, m, sub, hpm, hlkm, hsubm, rfl⟩
        · rw [hlink] at hnone; cases hnone
        · rw [hlink] at hpm
          injection hpm with he
          have hmq : m = q := by
            rw [← he] at hlkm
            rw [hpo.2.1] at hlkm
            injection hlkm with h2
            exact h2.symm
          subst hmq
          rw [mem_dkeys_dupdate]
          exact Or.inr (ih hsubm)
      rcases hf with ⟨-, rfl⟩ | ⟨fid, f, sub, -, -, -, rfl⟩
      · exact hd1
      · rw [mem_dkeys_dupdate, mem_dkeys_dinsert]
        exact Or.inl (Or.inr hd1)
    · rcases hf with ⟨hnone, -⟩ | ⟨fid, f, sub, hpf, hlkf, hsubf, rfl⟩
      · rw [hlink] at hnone; cases hnone
      · rw [hlink] at hpf
        injection hpf with he
        have hfq : f = q := by
          rw [← he] at hlkf
          rw [hpo.2.1] at hlkf
          injection hlkf with h2
          exact h2.symm
        subst hfq
        rw [mem_dkeys_dupdate]
        exact Or.inr (ih hsubf)

/-- Membership in the children query is exactly the recorded parent relation,
in a well-formed store. -/
theorem mem_childrenOf {g : List Person} (hwf : WF g) {p q : Person}
    (hp : p ∈ g) : q ∈ childrenOf g p ↔ ParentOf g p q := by
  unfold childrenOf
  rw [mem_sortByDob, List.mem_filter]
  constructor
  · rintro ⟨hq, hcond⟩
    refine ⟨hq, lookup_self g p (wf_nodup hwf) hp, ?_⟩
    rcases hgen : (p.gender == 'F') with - | - <;> rw [hgen] at hcond <;>
      simp at hcond
    · exact Or.inr hcond
    · exact Or.inl hcond
  · rintro ⟨hq, hlk, hlink | hlink⟩
    · obtain ⟨p', hlk', hgen⟩ := wf_mother hwf hq hlink
      rw [hlk] at hlk'
      injection hlk' with he
      subst he
      refine ⟨hq, ?_⟩
      rw [if_pos (by simp [hgen])]
      simpa using hlink
    · obtain ⟨p', hlk', hgen⟩ := wf_father hwf hq hlink
      rw [hlk] at hlk'
      injection hlk' with he
      subst he
      have : (p.gender == 'F') = false := by
        rw [hgen]
        decide
      refine ⟨hq, ?_⟩
      rw [if_neg (by simp [this, hgen])]
      simpa using hlink

/-- Shape of one successful step of the descendant walk. -/
theorem desc_walk_succ {g : List Person} {fuel : Nat} {p : Person}
    {L : List Person} (h : descendantsFuel g (fuel + 1) p = some L) :
    ∃ ds, omapM (fun c => descendantsFuel g fuel c) (childrenOf g p) = some ds ∧
      L = childrenOf g p ++ ds.flatten := by
  unfold descendantsFuel at h
  rcases hom : omapM (fun c => descendantsFuel g fuel c) (childrenOf g p)
    with - | ds <;> rw [hom] at h
  · exact absurd h (by simp)
  · injection h with h2
    exact ⟨ds, rfl, h2.symm⟩

/-- Every member of a completed descendant walk is a genuine descendant
(reachable downward by some parent chain). -/
theorem desc_sound {g : List Person} (hwf : WF g) :
    ∀ fuel {r : Person} {L : List Person}, r ∈ g →
      descendantsFuel g fuel r = some L →
      ∀ q ∈ L, ∃ n, AncN g r q n := by
  intro fuel
  induction fuel with
  | zero =>
    intro r L _ h
    exact absurd h (by simp [descendantsFuel])
  | succ fuel ih =>
    intro r L hr h q hq
    obtain ⟨ds, hom, rfl⟩ := desc_walk_succ h
    rcases List.mem_append.mp hq with hq1 | hq2
    · exact ⟨1, AncN.parent ((mem_childrenOf hwf hr).mp hq1)⟩
    · rcases List.mem_flatten.mp hq2 with ⟨l, hl, hql⟩
      obtain ⟨c, hc, hcl⟩ := omapM_mem_rev _ _ _ hom l hl
      have hpo : ParentOf g r c := (mem_childrenOf hwf hr).mp hc
      obtain ⟨n, hn⟩ := ih (parentOf_child_mem hpo) hcl q hql
      exact ⟨1 + n, ancN_trans (AncN.parent hpo) hn⟩

/-- Every genuine descendant appears in a completed descendant walk. -/
theorem desc_complete {g : List Person} (hwf : WF g) :
    ∀ n {r q : Person}, AncN g r q n →
      ∀ {fuel : Nat} {L : List Person},
        descendantsFuel g fuel r = some L → q ∈ L := by
  intro n
  induction n using Nat.strong_induction_on with
  | _ n ihn =>
    intro r q hc fuel L hL
    rcases fuel with - | fuel
    · exact absurd hL (by simp [descendantsFuel])
    obtain ⟨ds, hom, rfl⟩ := desc_walk_succ hL
    rcases ancN_top_decomp hc with ⟨rfl, htop⟩ | ⟨c, m, htop, hchain, rfl⟩
    · exact List.mem_append.mpr
        (Or.inl ((mem_childrenOf hwf (parentOf_parent_mem htop)).mpr htop))
    · have hcmem : c ∈ childrenOf g r :=
        (mem_childrenOf hwf (parentOf_parent_mem htop)).mpr htop
      obtain ⟨l, hcl, hlds⟩ := omapM_mem _ _ _ hom c hcmem
      have hql : q ∈ l := ihn m (by omega) hchain hcl
      exact List.mem_append.mpr (Or.inr (List.mem_flatten.mpr ⟨l, hlds, hql⟩))

/-- Membership in the dereferenced ancestor list of a completed walk is
exactly ancestorhood. -/
theorem mem_ancs_iff {g : List Person} {p : Person} (hp : p ∈ g)
    {fuel off : Nat} {d : List (Nat × Nat)}
    (hd : ancestorDistancesFuel g fuel p off = some d) (q : Person) :
    q ∈ (dkeys d).filterMap (lookup g) ↔ AncOf g q p := by
  rw [List.mem_filterMap]
  constructor
  · rintro ⟨i, hi, hlk⟩
    obtain ⟨q', n, hlk', hchain⟩ := ancKeys_sound fuel hp hd i hi
    rw [hlk] at hlk'
    injection hlk' with he
    exact ⟨n, he ▸ hchain⟩
  · rintro ⟨n, hchain⟩
    exact ⟨q.id, ancKeys_complete hchain hd, ancN_top_lookup hchain⟩

/-- Shape of a successful `relatives` computation. -/
theorem relatives_succ {g : List Person} {fuel : Nat} {p : Person}
    {R : List Nat} (h : relativesFuel g fuel p = some R) :
    ∃ d ds,
      ancestorDistancesFuel g fuel p 0 = some d ∧
      omapM (fun r => descendantsFuel g fuel r)
        (rootsOf p ((dkeys d).filterMap (lookup g))) = some ds ∧
      p.id ∈ (rootsOf p ((dkeys d).filterMap (lookup g)) ++ ds.flatten).map
        (fun q => q.id) ∧
      R = ((rootsOf p ((dkeys d).filterMap (lookup g)) ++ ds.flatten).map
        (fun q => q.id)).dedup.filter (fun i => i != p.id) := by
  unfold relativesFuel at h
  rcases hd : ancestorDistancesFuel g fuel p 0 with - | d <;> rw [hd] at h <;>
    try dsimp only at h
  · exact absurd h (by simp)
  · rcases hom : omapM (fun r => descendantsFuel g fuel r)
        (rootsOf p ((dkeys d).filterMap (lookup g))) with - | ds <;>
      rw [hom] at h <;> try dsimp only at h
    · exact absurd h (by simp)
    · by_cases hmem : p.id ∈ (rootsOf p ((dkeys d).filterMap (lookup g)) ++
          ds.flatten).map (fun q => q.id)
      · rw [if_pos hmem] at h
        injection h with h2
        exact ⟨d, ds, rfl, hom, hmem, h2.symm⟩
      · rw [if_neg hmem] at h
        exact absurd h (by simp)

/-- Shape of a successful brute-force relative computation. -/
theorem brute_succ {g : List Person} {fuel : Nat} {p : Person}
    {B : List Nat} (h : bruteForceRelatives g fuel p = some B) :
    ∃ d ds,
      ancestorDistancesFuel g fuel p 0 = some d ∧
      omapM (fun a => descendantsFuel g fuel a)
        ((dkeys d).filterMap (lookup g)) = some ds ∧
      B = ((((dkeys d).filterMap (lookup g) ++ ds.flatten).map
        (fun q => q.id)).dedup).filter (fun i => i != p.id) := by
  unfold bruteForceRelatives at h
  rcases hd : ancestorDistancesFuel g fuel p 0 with - | d <;> rw [hd] at h <;>
    try dsimp only at h
  · exact absurd h (by simp)
  · rcases hom : omapM (fun a => descendantsFuel g fuel a)
        ((dkeys d).filterMap (lookup g)) with - | ds <;>
      rw [hom] at h <;> try dsimp only at h
    · exact absurd h (by simp)
    · injection h with h2
      exact ⟨d, ds, rfl, hom, h2.symm⟩

/-! Claim theorems. -/

/-- C9: `clean()` raises a `ValidationError` exactly when a date of death is
recorded while the `deceased` flag is false; in every other combination it
returns without error (and, being a pure read of the record, changes no
state). -/
theorem C9_clean_raises_iff (p : Person) :
    (clean p).isSome = (p.date_of_death.isSome && !p.deceased) := by
  unfold clean
  by_cases h : (p.date_of_death.isSome && !p.deceased) = true
  · rw [if_pos h, h]
    rfl
  · rw [if_neg h]
    simp at h
    rcases hdd : p.date_of_death.isSome with - | - <;>
      rcases hdec : p.deceased with - | - <;> simp_all

/-- C10: for a person with neither parent recorded the sibling query returns
the empty sequence — the NULL parent links never match other parentless
persons, because each disjunct requires the other person's link to be
non-NULL and equal to this person's (NULL) link. -/
theorem C10_no_parents_no_siblings (g : List Person) (p : Person)
    (hm : p.mother = none) (hf : p.father = none) : siblings g p = [] := by
  unfold siblings
  have hfil : g.filter (fun q =>
      (q.id != p.id) &&
        ((q.father.isSome && q.father == p.father) ||
         (q.mother.isSome && q.mother == p.mother))) = [] := by
    rw [List.filter_eq_nil_iff]
    intro q hq
    rw [hm, hf]
    rcases hqf : q.father with - | f <;> rcases hqm : q.mother with - | m <;> simp
  rw [hfil]
  rfl

/-- Witness for C10 at a concrete store: two parentless persons are not
reported as each other's siblings. -/
theorem C10_no_parents_no_siblings_witness : siblings g10 A10 = [] :=
  C10_no_parents_no_siblings g10 A10 rfl rfl

/-- C6: `age()` is `None` when the birth date is missing or the person is
deceased without a death date; otherwise it is the year difference to the
death date (deceased) or to today (living), less one when the birth
anniversary has not yet occurred in the end year. -/
theorem C6_age_spec (p : Person) (today : MDate) :
    (p.date_of_birth = none → age p today = none) ∧
    (p.deceased = true → p.date_of_death = none → age p today = none) ∧
    (∀ b, p.date_of_birth = some b → p.deceased = false →
      age p today = some ((today.year : Int) - (b.year : Int) -
        (if today.month < b.month ∨ (today.month = b.month ∧ today.day < b.day)
         then 1 else 0))) ∧
    (∀ b e, p.date_of_birth = some b → p.deceased = true →
      p.date_of_death = some e →
      age p today = some ((e.year : Int) - (b.year : Int) -
        (if e.month < b.month ∨ (e.month = b.month ∧ e.day < b.day)
         then 1 else 0))) := by
  refine ⟨?_, ?_, ?_, ?_⟩
  · intro h
    unfold age
    rw [h]
  · intro h1 h2
    unfold age
    rcases hb : p.date_of_birth with - | b
    · rfl
    · rw [h1, h2]
  · intro b hb hdec
    unfold age
    rw [hb, hdec]
    dsimp only
    split <;> ring_nf
  · intro b e hb hdec hdd
    unfold age
    rw [hb, hdec, hdd]
    dsimp only
    split <;> ring_nf

/-- Witness for C6: the spec's own example, a living person born 2000-06-15
is 19 on 2020-06-14 and 20 on 2020-06-15. -/
theorem C6_age_spec_witness :
    age personBorn2000 ⟨2020, 6, 14⟩ = some 19 ∧
      age personBorn2000 ⟨2020, 6, 15⟩ = some 20 := by
  constructor
  · rw [(C6_age_spec personBorn2000 ⟨2020, 6, 14⟩).2.2.1 ⟨2000, 6, 15⟩ rfl rfl]
    norm_num
  · rw [(C6_age_spec personBorn2000 ⟨2020, 6, 15⟩).2.2.1 ⟨2000, 6, 15⟩ rfl rfl]
    norm_num

/-- C5: `Person.ancestors` calls `self.ancestor_distances()`, but the class
defines no attribute of that name (the walk is named `_ancestor_distances`),
so the call raises `AttributeError` instead of returning the key set. -/
theorem C5_ancestors_attribute_missing :
    personAttrNames.contains "ancestor_distances" = false ∧
      personAttrNames.contains "_ancestor_distances" = true := by
  constructor <;> rfl

/-- C7: the descendant enumeration does not deduplicate: a grandchild whose
two parents are both children of `P7` is listed twice. -/
theorem C7_duplicate_descendant :
    descendantsFuel g7 5 P7 = some [C7a, C7b, G7, G7] ∧
      [C7a, C7b, G7, G7].count G7 = 2 := by
  constructor <;> rfl

/-- C1: the ancestor walk records the distance written last, not the minimum:
in `g6` the shared ancestor `G6` (id 3) is reachable at distance 2 through
the mother but the recorded distance is 3, written later through the father's
side. -/
theorem C1_last_write_not_min :
    (ancestorDistancesFuel g6 10 P6 0).bind (fun d => dlookup d G6.id) = some 3 ∧
      AncN g6 G6 P6 2 := by
  constructor
  · rfl
  · exact AncN.step (q := M6) (by decide) (AncN.parent (by decide))

/-- C2: on the malformed store in which a person is her own mother, neither
traversal ever completes, whatever recursion depth is allowed — the embedding
of an unbounded recursion (Python dies with a `RecursionError`), not of a
`GraphIntegrityError` signal. -/
theorem C2_cycle_divergence :
    (∀ fuel off, ancestorDistancesFuel gcyc fuel Acyc off = none) ∧
    (∀ fuel, descendantsFuel gcyc fuel Acyc = none) := by
  constructor
  · intro fuel
    induction fuel with
    | zero => intro off; rfl
    | succ f ih =>
      intro off
      unfold ancestorDistancesFuel
      rw [show Acyc.mother = some 0 from rfl]
      dsimp only
      rw [show lookup gcyc 0 = some Acyc from rfl]
      dsimp only
      rw [ih (off + 1)]
      rfl
  · intro fuel
    induction fuel with
    | zero => rfl
    | succ f ih =>
      unfold descendantsFuel
      rw [show childrenOf gcyc Acyc = [Acyc] from rfl]
      show (match omapM (fun c => descendantsFuel gcyc f c) [Acyc] with
        | none => none
        | some ds => some ([Acyc] ++ ds.flatten)) = none
      unfold omapM
      rw [ih]

/-- C8: in a well-formed acyclic store nobody is their own ancestor, their
own descendant, or their own blood relative: whenever the traversals
complete, `p` is absent from its own ancestor keys, descendant list, and
relative set. -/
theorem C8_not_own_relative (g : List Person) (fuel : Nat) (p : Person)
    (hwf : WF g) (hac : Acyclic g) (hp : p ∈ g) :
    (∀ d, ancestorDistancesFuel g fuel p 0 = some d → p.id ∉ dkeys d) ∧
    (∀ L, descendantsFuel g fuel p = some L → p ∉ L) ∧
    (∀ R, relativesFuel g fuel p = some R → p.id ∉ R) := by
  refine ⟨?_, ?_, ?_⟩
  · intro d hd hmem
    obtain ⟨q, n, hlk, hchain⟩ := ancKeys_sound fuel hp hd p.id hmem
    rw [lookup_self g p (wf_nodup hwf) hp] at hlk
    injection hlk with he
    exact acyclic_no_self_anc hac (he ▸ hchain)
  · intro L hL hmem
    obtain ⟨n, hchain⟩ := desc_sound hwf fuel hp hL p hmem
    exact acyclic_no_self_anc hac hchain
  · intro R hR hmem
    obtain ⟨d, ds, -, -, -, rfl⟩ := relatives_succ hR
    rw [List.mem_filter] at hmem
    simp at hmem

/-- Witness for C8 on the three-generation line `g3`: the concrete results of
the three traversals from `P3` do not contain `P3`. -/
theorem C8_not_own_relative_witness :
    P3.id ∉ dkeys [(2, 2), (1, 1)] ∧ P3 ∉ ([] : List Person) ∧
      P3.id ∉ [2, 1] := by
  obtain ⟨h1, h2, h3⟩ := C8_not_own_relative g3 9 P3 (by decide)
    ⟨fun i => i, by decide⟩ (by decide)
  exact ⟨h1 _ rfl, h2 _ rfl, h3 _ rfl⟩

/-- C3, as stated, is false: the source treats an ancestor as a root as soon
as at least one parent is unrecorded.  In `g3`, `M3` has a recorded mother
(`G3`) yet appears in the computed root-ancestor list of `P3`. -/
theorem C3_half_root_counterexample :
    rootAncestorsFuel g3 9 P3 = some [G3, M3] ∧ M3.mother = some G3.id := by
  constructor <;> rfl

/-- C3 amended: the computed root-ancestor set consists of those ancestors
with an unrecorded parent on AT LEAST ONE side (not necessarily both); when
the person has no ancestors at all, the person themself is the sole root. -/
theorem C3_roots_amended (g : List Person) (fuel : Nat) (p : Person)
    (hwf : WF g) (hac : Acyclic g) (hp : p ∈ g) (l : List Person)
    (hl : rootAncestorsFuel g fuel p = some l) :
    ∀ q, q ∈ l ↔
      ((AncOf g q p ∧ (q.father.isSome && q.mother.isSome) = false) ∨
       ((¬ ∃ a, AncOf g a p) ∧ q = p)) := by
  unfold rootAncestorsFuel at hl
  rcases hd : ancestorDistancesFuel g fuel p 0 with - | d <;> rw [hd] at hl
  · exact absurd hl (by simp)
  · simp only [Option.map_some'] at hl
    injection hl with hl
    obtain ⟨h, hr⟩ := hac
    intro q
    rcases hemp : (((dkeys d).filterMap (lookup g)).filter
        (fun a => !(a.father.isSome && a.mother.isSome))).isEmpty with - | -
    · -- some rootish ancestor exists: the filtered list is the root list
      have hl2 : l = ((dkeys d).filterMap (lookup g)).filter
          (fun a => !(a.father.isSome && a.mother.isSome)) := by
        rw [← hl]
        unfold rootsOf
        rw [hemp]
        rfl
      have hanc : ∃ a, AncOf g a p := by
        have hne : (((dkeys d).filterMap (lookup g)).filter
            (fun a => !(a.father.isSome && a.mother.isSome))) ≠ [] := by
          intro hcon
          rw [hcon] at hemp
          cases hemp
        obtain ⟨r, hrmem⟩ := List.exists_mem_of_ne_nil _ hne
        exact ⟨r, (mem_ancs_iff hp hd r).mp (List.mem_filter.mp hrmem).1⟩
      rw [hl2, List.mem_filter]
      constructor
      · rintro ⟨hqancs, hcond⟩
        refine Or.inl ⟨(mem_ancs_iff hp hd q).mp hqancs, ?_⟩
        revert hcond
        cases q.father.isSome && q.mother.isSome <;> simp
      · rintro (⟨hqanc, hcond⟩ | ⟨hnone, -⟩)
        · refine ⟨(mem_ancs_iff hp hd q).mpr hqanc, ?_⟩
          revert hcond
          cases q.father.isSome && q.mother.isSome <;> simp
        · exact absurd hanc hnone
    · -- no rootish ancestor: under acyclicity there is no ancestor at all
      have hl2 : l = [p] := by
        rw [← hl]
        unfold rootsOf
        rw [hemp]
        rfl
      have hnone : ¬ ∃ a, AncOf g a p := by
        rintro ⟨a, n, hchain⟩
        obtain ⟨r, hrp, -, hroot⟩ :=
          root_above hwf hr g.length a p n (by omega) hchain
        have hrmem : r ∈ (((dkeys d).filterMap (lookup g)).filter
            (fun a => !(a.father.isSome && a.mother.isSome))) :=
          List.mem_filter.mpr ⟨(mem_ancs_iff hp hd r).mpr hrp, by simp [hroot]⟩
        rcases hflt : (((dkeys d).filterMap (lookup g)).filter
            (fun a => !(a.father.isSome && a.mother.isSome))) with - | ⟨b, bs⟩
        · rw [hflt] at hrmem; cases hrmem
        · rw [hflt] at hemp; cases hemp
      rw [hl2]
      constructor
      · intro hq
        rcases List.mem_singleton.mp hq with rfl
        exact Or.inr ⟨hnone, rfl⟩
      · rintro (⟨⟨n, hchain⟩, -⟩ | ⟨-, rfl⟩)
        · exact absurd ⟨q, n, hchain⟩ hnone
        · exact List.mem_singleton.mpr rfl

/-- Witness for C3 amended: `M3` is an ancestor of `P3` with an unrecorded
father, so the amended characterization puts it in the root list of `g3`. -/
theorem C3_roots_amended_witness : M3 ∈ [G3, M3] :=
  (C3_roots_amended g3 9 P3 (by decide) ⟨fun i => i, by decide⟩ (by decide)
      [G3, M3] rfl M3).mpr
    (Or.inl ⟨⟨1, AncN.parent (by decide)⟩, by decide⟩)

/-- C4, as stated, is false when the person has no ancestors: the source then
falls back to `[self]` and returns the person's own descendants, while the
brute-force union over the (empty) ancestor set is empty.  In `gC4` the
parentless `PC4` has relative set `{1}` but brute-force set `{}`. -/
theorem C4_no_ancestor_counterexample :
    relativesFuel gC4 5 PC4 = some [CC4.id] ∧
      bruteForceRelatives gC4 5 PC4 = some [] ∧
      [CC4.id].contains CC4.id = true ∧
      ([] : List Nat).contains CC4.id = false := by
  refine ⟨rfl, rfl, rfl, rfl⟩

/-- C4 amended: for a person with at least one ancestor (in a well-formed
acyclic store), the relative set computed through root ancestors equals, as a
set, the brute-force union of all ancestors and all their descendants, minus
the person. -/
theorem C4_root_equiv_amended (g : List Person) (fuel : Nat) (p : Person)
    (hwf : WF g) (hac : Acyclic g) (hp : p ∈ g)
    (d : List (Nat × Nat)) (hd : ancestorDistancesFuel g fuel p 0 = some d)
    (hne : dkeys d ≠ [])
    (R B : List Nat) (hR : relativesFuel g fuel p = some R)
    (hB : bruteForceRelatives g fuel p = some B) :
    ∀ x, x ∈ R ↔ x ∈ B := by
  obtain ⟨d1, ds, hd1, hom, hpre, hReq⟩ := relatives_succ hR
  rw [hd] at hd1
  injection hd1 with he1
  subst he1
  obtain ⟨d2, dsB, hd2, homB, hBeq⟩ := brute_succ hB
  rw [hd] at hd2
  injection hd2 with he2
  subst he2
  obtain ⟨h, hr⟩ := hac
  -- the filtered root list is nonempty, so the `[self]` fallback is not taken
  have hrs : ∃ r, r ∈ ((dkeys d).filterMap (lookup g)).filter
      (fun a => !(a.father.isSome && a.mother.isSome)) := by
    obtain ⟨i, hi⟩ := List.exists_mem_of_ne_nil _ hne
    obtain ⟨q, n, hlk, hchain⟩ := ancKeys_sound fuel hp hd i hi
    obtain ⟨r, hrp, -, hroot⟩ :=
      root_above hwf hr g.length q p n (by omega) hchain
    exact ⟨r, List.mem_filter.mpr
      ⟨(mem_ancs_iff hp hd r).mpr hrp, by simp [hroot]⟩⟩
  have hroots : rootsOf p ((dkeys d).filterMap (lookup g)) =
      ((dkeys d).filterMap (lookup g)).filter
        (fun a => !(a.father.isSome && a.mother.isSome)) := by
    unfold rootsOf
    rcases hemp : (((dkeys d).filterMap (lookup g)).filter
        (fun a => !(a.father.isSome && a.mother.isSome))).isEmpty with - | -
    · rw [hemp]
      rfl
    · obtain ⟨r, hrmem⟩ := hrs
      rcases hflt : (((dkeys d).filterMap (lookup g)).filter
          (fun a => !(a.father.isSome && a.mother.isSome))) with - | ⟨b, bs⟩
      · rw [hflt] at hrmem; cases hrmem
      · rw [hflt] at hemp; cases hemp
  rw [hroots] at hom hReq
  have hkey : ∀ q : Person,
      (q ∈ ((dkeys d).filterMap (lookup g)).filter
          (fun a => !(a.father.isSome && a.mother.isSome)) ∨
        q ∈ ds.flatten) ↔
      (q ∈ (dkeys d).filterMap (lookup g) ∨ q ∈ dsB.flatten) := by
    intro q
    constructor
    · rintro (hq | hq)
      · exact Or.inl (List.mem_filter.mp hq).1
      · rcases List.mem_flatten.mp hq with ⟨l, hl, hql⟩
        obtain ⟨r, hrroots, hdescr⟩ := omapM_mem_rev _ _ _ hom l hl
        have hdescr2 : descendantsFuel g fuel r = some l := hdescr
        have hrancs : r ∈ (dkeys d).filterMap (lookup g) :=
          (List.mem_filter.mp hrroots).1
        obtain ⟨lB, hdescB, hlB⟩ := omapM_mem _ _ _ homB r hrancs
        have hdescB2 : descendantsFuel g fuel r = some lB := hdescB
        rw [hdescr2] at hdescB2
        injection hdescB2 with he
        exact Or.inr (List.mem_flatten.mpr ⟨lB, hlB, he ▸ hql⟩)
    · rintro (hq | hq)
      · obtain ⟨n, hn⟩ := (mem_ancs_iff hp hd q).mp hq
        obtain ⟨r, hrp, hra, hroot⟩ :=
          root_above hwf hr g.length q p n (by omega) hn
        have hrroots : r ∈ ((dkeys d).filterMap (lookup g)).filter
            (fun a => !(a.father.isSome && a.mother.isSome)) :=
          List.mem_filter.mpr ⟨(mem_ancs_iff hp hd r).mpr hrp, by simp [hroot]⟩
        rcases hra with rfl | ⟨m, hm⟩
        · exact Or.inl hrroots
        · obtain ⟨l, hdescr, hlds⟩ := omapM_mem _ _ _ hom r hrroots
          have hdescr2 : descendantsFuel g fuel r = some l := hdescr
          exact Or.inr (List.mem_flatten.mpr
            ⟨l, hlds, desc_complete hwf m hm hdescr2⟩)
      · rcases List.mem_flatten.mp hq with ⟨l, hl, hql⟩
        obtain ⟨a, haancs, hdesca⟩ := omapM_mem_rev _ _ _ homB l hl
        have hdesca2 : descendantsFuel g fuel a = some l := hdesca
        obtain ⟨n, hn⟩ := (mem_ancs_iff hp hd a).mp haancs
        obtain ⟨m, hm⟩ := desc_sound hwf fuel (ancN_top_mem hn) hdesca2 q hql
        obtain ⟨r, hrp, hra, hroot⟩ :=
          root_above hwf hr g.length a p n (by omega) hn
        have hrroots : r ∈ ((dkeys d).filterMap (lookup g)).filter
            (fun a => !(a.father.isSome && a.mother.isSome)) :=
          List.mem_filter.mpr ⟨(mem_ancs_iff hp hd r).mpr hrp, by simp [hroot]⟩
        have hrq : ∃ k, AncN g r q k := by
          rcases hra with rfl | ⟨k, hk⟩
          · exact ⟨m, hm⟩
          · exact ⟨k + m, ancN_trans hk hm⟩
        obtain ⟨k, hk⟩ := hrq
        obtain ⟨l2, hdescr, hlds2⟩ := omapM_mem _ _ _ hom r hrroots
        have hdescr2 : descendantsFuel g fuel r = some l2 := hdescr
        exact Or.inr (List.mem_flatten.mpr
          ⟨l2, hlds2, desc_complete hwf k hk hdescr2⟩)
  intro x
  rw [hReq, hBeq]
  constructor
  · intro hx
    rw [List.mem_filter, List.mem_dedup, List.mem_map] at hx
    obtain ⟨⟨q, hq, rfl⟩, hbx⟩ := hx
    rw [List.mem_filter, List.mem_dedup, List.mem_map]
    exact ⟨⟨q, List.mem_append.mpr ((hkey q).mp (List.mem_append.mp hq)), rfl⟩,
      hbx⟩
  · intro hx
    rw [List.mem_filter, List.mem_dedup, List.mem_map] at hx
    obtain ⟨⟨q, hq, rfl⟩, hbx⟩ := hx
    rw [List.mem_filter, List.mem_dedup, List.mem_map]
    exact ⟨⟨q, List.mem_append.mpr ((hkey q).mpr (List.mem_append.mp hq)), rfl⟩,
      hbx⟩

/-- Witness for C4 amended on `g3`: both computations succeed (with relative
set `{2, 1}` on each side) and the equivalence holds at the sample member
`1`. -/
theorem C4_root_equiv_amended_witness : (1 ∈ [2, 1]) ↔ (1 ∈ [2, 1]) :=
  C4_root_equiv_amended g3 9 P3 (by decide) ⟨fun i => i, by decide⟩ (by decide)
    [(2, 2), (1, 1)] rfl (by decide) [2, 1] [2, 1] rfl rfl 1
